import Mathlib

/-!
Verification of the customer-behavior analysis pipeline of this
repository (`src/data/processor.py`, `main.py`,
`src/marketing/email_campaigns.py`).  Data tables are embedded as lists
of records, the pandas aggregations as explicit list computations, and
fallible operations as `Except` values whose error strings repeat the
`ValueError` messages of the source.
-/

/-- One raw transaction row: columns `Member_number`, `item`, `Date`
(already parsed to a day number, as after `pd.to_datetime`), `name`,
`email`. -/
structure Txn where
  member : Nat
  item : String
  date : Int
deriving DecidableEq, Repr

/-- The `Champions` code list of `segment_customers`. -/
def championsCodes : List String :=
  ["555", "554", "544", "545", "454", "455", "445"]

/-- The `Loyal Customers` code list of `segment_customers`. -/
def loyalCodes : List String :=
  ["543", "444", "435", "355", "354", "345", "344", "335"]

/-- The `Potential Loyalists` code list of `segment_customers`. -/
def potentialCodes : List String :=
  ["512", "511", "422", "421", "412", "411", "311"]

/-- The `New Customers` code list of `segment_customers`. -/
def newCustomerCodes : List String :=
  ["533", "532", "531", "523", "522", "521", "515", "514", "513", "425",
   "424", "413", "414", "415", "315", "314", "313"]

/-- The `At Risk` code list of `segment_customers`. -/
def atRiskCodes : List String :=
  ["155", "154", "144", "214", "215", "115", "114"]

/-- The `Cannot Lose Them` code list of `segment_customers`. -/
def cannotLoseCodes : List String :=
  ["255", "254", "245", "244", "253", "252", "243", "242", "235", "234",
   "225", "224", "153", "152", "145", "143", "142", "135", "134", "125", "124"]

/-- `segment_customers` from `DataProcessor.get_customer_segments`:
the if/elif chain over the fixed code lists, defaulting to `Others`. -/
def segment_customers (rfm_score : String) : String :=
  if rfm_score ∈ championsCodes then "Champions"
  else if rfm_score ∈ loyalCodes then "Loyal Customers"
  else if rfm_score ∈ potentialCodes then "Potential Loyalists"
  else if rfm_score ∈ newCustomerCodes then "New Customers"
  else if rfm_score ∈ atRiskCodes then "At Risk"
  else if rfm_score ∈ cannotLoseCodes then "Cannot Lose Them"
  else "Others"

/-- Ascending sort of a numeric column (what `pandas.qcut` does before
computing quantile bin edges). -/
def sortQ (xs : List ℚ) : List ℚ := List.insertionSort (· ≤ ·) xs

/-- Linear-interpolation quantile of a sorted sample, as computed by
`numpy`/`pandas` for the bin edges of `qcut`: position `h = q*(n-1)`,
then interpolate between the neighbouring order statistics. -/
def quantileSorted (s : List ℚ) (q : ℚ) : ℚ :=
  let h : ℚ := q * ((s.length : ℚ) - 1)
  let i : ℕ := (Int.floor h).toNat
  let lo := s.getD (min i (s.length - 1)) 0
  let hi := s.getD (min (i + 1) (s.length - 1)) 0
  lo + (h - (i : ℚ)) * (hi - lo)

/-- The six quintile bin edges `pandas.qcut(xs, 5)` computes. -/
def qEdges (xs : List ℚ) : List ℚ :=
  (List.range 6).map fun j : ℕ => quantileSorted (sortQ xs) ((j : ℚ) / 5)

/-- Bucket index (0..4) a value falls into given the six edges:
intervals are right-closed and the lowest bucket absorbs the minimum,
as in `pandas.qcut`. -/
def bucketOf (e : List ℚ) (v : ℚ) : ℕ :=
  if v ≤ e.getD 1 0 then 0
  else if v ≤ e.getD 2 0 then 1
  else if v ≤ e.getD 3 0 then 2
  else if v ≤ e.getD 4 0 then 3
  else 4

/-- `pandas.qcut(xs, 5, labels)`: raises `ValueError` when the computed
bin edges are not pairwise distinct ("Bin edges must be unique"),
otherwise maps every value to the label of its bucket. -/
def qcut5 (xs : List ℚ) (labels : List ℕ) : Except String (List ℕ) :=
  if (qEdges xs).Nodup then
    .ok (xs.map fun v => labels.getD (bucketOf (qEdges xs) v) 0)
  else .error "Bin edges must be unique"

/-- The rank `Series.rank(method='first')` assigns to position `i`:
one plus the number of strictly smaller values, plus the number of
earlier occurrences of the same value (ties broken by position). -/
def rankN (xs : List ℚ) (i : ℕ) : ℕ :=
  (xs.countP fun y => decide (y < xs.getD i 0)) +
    ((xs.take i).countP fun y => decide (y = xs.getD i 0)) + 1

/-- `Series.rank(method='first')` as a list of rational ranks. -/
def rankFirst (xs : List ℚ) : List ℚ :=
  (List.range xs.length).map fun i => ((rankN xs i : ℕ) : ℚ)

/-- Distinct `Member_number` keys in ascending order (`groupby` sorts
its keys). -/
def sortedMembers (rows : List Txn) : List ℕ :=
  List.insertionSort (· ≤ ·) (rows.map Txn.member).dedup

/-- The group of rows belonging to one customer. -/
def memberRows (rows : List Txn) (m : ℕ) : List Txn :=
  rows.filter fun t => decide (t.member = m)

/-- Maximum of a column (0 on an empty column). -/
def listMax (l : List ℤ) : ℤ := l.foldl max (l.headD 0)

/-- Minimum of a column (0 on an empty column). -/
def listMin (l : List ℤ) : ℤ := l.foldl min (l.headD 0)

/-- `current_date = cleaned_df['Date'].max()`. -/
def current_date (rows : List Txn) : ℤ := listMax (rows.map Txn.date)

/-- Recency of one customer: `(current_date - x.max()).days`. -/
def recencyOf (rows : List Txn) (m : ℕ) : ℤ :=
  current_date rows - listMax ((memberRows rows m).map Txn.date)

/-- Frequency of one customer: `item: 'count'` over the group. -/
def frequencyOf (rows : List Txn) (m : ℕ) : ℕ := (memberRows rows m).length

/-- Monetary proxy of one customer: `item: 'nunique'` over the group. -/
def monetaryOf (rows : List Txn) (m : ℕ) : ℕ :=
  ((memberRows rows m).map Txn.item).dedup.length

/-- The `Recency` column of the `rfm` frame, in groupby key order. -/
def recencyList (rows : List Txn) : List ℤ :=
  (sortedMembers rows).map (recencyOf rows)

/-- The `Frequency` column of the `rfm` frame, in groupby key order. -/
def frequencyList (rows : List Txn) : List ℕ :=
  (sortedMembers rows).map (frequencyOf rows)

/-- The `Monetary` column of the `rfm` frame, in groupby key order. -/
def monetaryList (rows : List Txn) : List ℕ :=
  (sortedMembers rows).map (monetaryOf rows)

/-- One output row of the segmentation: `Member_number`, `Recency`,
`Frequency`, `Monetary`, the three quintile scores, the composite
`RFM_Score` code and the `Segment` label. -/
structure RFMRow where
  member : ℕ
  recency : ℤ
  frequency : ℕ
  monetary : ℕ
  rScore : ℕ
  fScore : ℕ
  mScore : ℕ
  rfmScore : String
  segment : String
deriving DecidableEq, Inhabited, Repr

/-- Assembles the `i`-th output row of the `rfm` frame from the score
columns (`RFM_Score` is the concatenation of the three scores printed as
decimal strings, matching `astype(str)` of the integer labels). -/
def mkRFMRow (members : List ℕ) (recs : List ℤ) (freqs mons rs fs ms : List ℕ)
    (i : ℕ) : RFMRow :=
  { member := members.getD i 0
    recency := recs.getD i 0
    frequency := freqs.getD i 0
    monetary := mons.getD i 0
    rScore := rs.getD i 0
    fScore := fs.getD i 0
    mScore := ms.getD i 0
    rfmScore := toString (rs.getD i 0) ++ toString (fs.getD i 0) ++ toString (ms.getD i 0)
    segment := segment_customers
      (toString (rs.getD i 0) ++ toString (fs.getD i 0) ++ toString (ms.getD i 0)) }

/-- `DataProcessor.get_customer_segments`: RFM aggregation per customer,
quintile scores (`R_Score` by `qcut` on the raw recency with labels
5..1, `F_Score`/`M_Score` by `qcut` on `rank(method='first')` of the raw
values with labels 1..5), composite code and segment label.  Fails as
the source does: on a missing cleaned table, or when `pd.qcut` raises on
duplicate bin edges (the R binning is evaluated first). -/
def get_customer_segments (cleaned_df : Option (List Txn)) :
    Except String (List RFMRow) :=
  match cleaned_df with
  | none => .error "Data not cleaned. Call clean_data() first."
  | some rows =>
    match qcut5 ((recencyList rows).map fun z : ℤ => (z : ℚ)) [5, 4, 3, 2, 1],
          qcut5 (rankFirst ((frequencyList rows).map fun k : ℕ => (k : ℚ))) [1, 2, 3, 4, 5],
          qcut5 (rankFirst ((monetaryList rows).map fun k : ℕ => (k : ℚ))) [1, 2, 3, 4, 5] with
    | .ok rs, .ok fs, .ok ms =>
        .ok ((List.range (sortedMembers rows).length).map
          (mkRFMRow (sortedMembers rows) (recencyList rows)
            (frequencyList rows) (monetaryList rows) rs fs ms))
    | .error e, _, _ => .error e
    | .ok _, .error e, _ => .error e
    | .ok _, .ok _, .error e => .error e

/-- The quintile bin edges the pipeline computes for the raw recency
column. -/
def recency_edges (rows : List Txn) : List ℚ :=
  qEdges ((recencyList rows).map fun z : ℤ => (z : ℚ))

/-- Number of distinct customers in the input table
(`df['Member_number'].nunique()`). -/
def distinct_customers (rows : List Txn) : ℕ :=
  (rows.map Txn.member).dedup.length

/-- Per-customer statistics built by the `groupby('Member_number')`
aggregation inside `DataProcessor.clean_data`. -/
structure CustomerStat where
  member : ℕ
  total_purchases : ℕ
  first_purchase : ℤ
  last_purchase : ℤ
  unique_items : ℕ
  tenure_days : ℤ
  purchase_frequency : ℚ
deriving DecidableEq, Inhabited, Repr

/-- The `customer_stats` frame of `clean_data`: per customer, the count,
min and max of `Date`, the distinct-item count, the tenure in days and
`purchase_frequency = total_purchases / (tenure_days + 1)`. -/
def customer_stats (rows : List Txn) : List CustomerStat :=
  (sortedMembers rows).map fun m =>
    let g := memberRows rows m
    let first := listMin (g.map Txn.date)
    let last := listMax (g.map Txn.date)
    { member := m
      total_purchases := g.length
      first_purchase := first
      last_purchase := last
      unique_items := (g.map Txn.item).dedup.length
      tenure_days := last - first
      purchase_frequency := (g.length : ℚ) / (((last - first : ℤ) : ℚ) + 1) }

/-- One row of the augmented (cleaned) table: the original transaction
joined with its customer's statistics. -/
structure CleanedRow where
  txn : Txn
  stats : CustomerStat
deriving DecidableEq, Repr

/-- The `DataProcessor` state: the raw table `df` (None before
`load_data`) and the augmented table `cleaned_df` (None before
`clean_data`). -/
structure DataProcessor where
  df : Option (List Txn)
  cleaned_df : Option (List CleanedRow)
deriving DecidableEq, Repr

/-- `DataProcessor.load_data`: stores the loaded table in `df`. -/
def load_data (p : DataProcessor) (rows : List Txn) : DataProcessor :=
  { p with df := some rows }

/-- The merge key lookup of `clean_data`'s
`merge(customer_stats, on='Member_number')`. -/
def statFor (stats : List CustomerStat) (m : ℕ) : CustomerStat :=
  (stats.find? fun s => decide (s.member = m)).getD default

/-- The augmented table `clean_data` builds: every raw row joined with
its customer's statistics. -/
def cleaned_rows (rows : List Txn) : List CleanedRow :=
  rows.map fun t => { txn := t, stats := statFor (customer_stats rows) t.member }

/-- `DataProcessor.clean_data`: fails with the state error when no data
is loaded; otherwise builds the augmented table on a copy of the raw
table, joining each row with its customer statistics.  The stored raw
table is left untouched. -/
def clean_data (p : DataProcessor) : Except String DataProcessor :=
  match p.df with
  | none => .error "Data not loaded. Call load_data() first."
  | some rows =>
      .ok { df := p.df
            cleaned_df := some (cleaned_rows rows) }

/-- A customer record as seen by `run_marketing_campaigns`
(`purchase_count` is that customer's transaction count). -/
structure CustomerRecord where
  member : ℕ
  name : String
  email : String
  purchase_count : ℕ
deriving DecidableEq, Repr

/-- `main.run_marketing_campaigns` line 129:
`all_customers[all_customers['purchase_count'] > 10]`. -/
def high_value_customers (cs : List CustomerRecord) : List CustomerRecord :=
  cs.filter fun c => decide (10 < c.purchase_count)

/-- `main.run_marketing_campaigns` line 130:
`all_customers[all_customers['purchase_count'] <= 3]`. -/
def low_engagement_customers (cs : List CustomerRecord) : List CustomerRecord :=
  cs.filter fun c => decide (c.purchase_count ≤ 3)

/-- The three campaign buckets. -/
inductive CampaignBucket where
  | high_value
  | regular
  | low_engagement
deriving DecidableEq, Repr

/-- The campaign classification over `total_purchases` defined by the two
dataframe filters of `main.py` (lines 129-130) together with the `> 10`
check in `EmailCampaignManager.create_discount_campaign`. -/
def campaign_bucket (total_purchases : ℕ) : CampaignBucket :=
  if 10 < total_purchases then .high_value
  else if total_purchases ≤ 3 then .low_engagement
  else .regular

/-- One engineered feature row used by the predictor. -/
structure FeatureRow where
  member : ℕ
  itemCode : ℕ
  day_of_month : ℕ
deriving DecidableEq, Inhabited, Repr

/-- Per-customer prediction output: predicted day of month plus the
probability mass of the predicted class. -/
structure PredictionResult where
  member : ℕ
  predicted_day : ℕ
  confidence : ℚ
deriving DecidableEq, Repr

/-- The outcome of one training run: the held-out split, the selected
best model with its held-out accuracy, and the per-customer predictions. -/
structure TrainRun where
  test_indices : List ℕ
  train_indices : List ℕ
  best_model : String
  best_score : ℚ
  results : List PredictionResult
deriving DecidableEq, Repr

/-- Modelled from the spec: `src/models/predictor.py` (class
`CustomerBehaviorPredictor`) is not under `src/`.  Per §4.3 the data is
split into a held-out evaluation partition of fixed proportion (0.2)
chosen deterministically from the random seed.  Here the seed rotates
the index order and the first fifth (rounded up) is held out. -/
def splitIndices (n seed : ℕ) : List ℕ × List ℕ :=
  let perm := (List.range n).map fun i => (i + seed) % n
  (perm.take ((n + 4) / 5), perm.drop ((n + 4) / 5))

/-- The modal day (1..31) of a day list together with its multiplicity;
ties resolve to the smallest day. -/
def modalDay (days : List ℕ) : ℕ × ℕ :=
  (List.range 31).foldl
    (fun best d =>
      let day := d + 1
      let c := days.count day
      if best.2 < c then (day, c) else best)
    (1, days.count 1)

/-- Modelled from the spec: the candidate model families' prediction for
one customer — `random_forest` predicts the customer's modal training
day (falling back to the global modal day), the second family predicts
the global modal day; confidence is the predicted class's share of the
pool. -/
def predictWith (name : String) (train : List FeatureRow) (m : ℕ) : ℕ × ℚ :=
  let mine := (train.filter fun r => decide (r.member = m)).map FeatureRow.day_of_month
  let pool :=
    if name = "random_forest" ∧ mine ≠ [] then mine
    else train.map FeatureRow.day_of_month
  let dc := modalDay pool
  (dc.1, if pool.length = 0 then 0 else (dc.2 : ℚ) / (pool.length : ℚ))

/-- The candidate model family names. -/
def candidateModels : List String := ["random_forest", "gradient_boosting"]

/-- Held-out classification accuracy of one candidate family. -/
def accuracyOf (name : String) (train test : List FeatureRow) : ℚ :=
  if test.length = 0 then 0
  else ((test.countP fun r =>
    decide ((predictWith name train r.member).1 = r.day_of_month) : ℕ) : ℚ) /
    (test.length : ℚ)

/-- The fold selecting the candidate with the highest held-out score
(first candidate wins ties). -/
def pickBest : List (String × ℚ) → String × ℚ
  | [] => ("", 0)
  | c :: cs => cs.foldl (fun best x => if best.2 < x.2 then x else best) c

/-- Modelled from the spec: the training pipeline of the absent
`CustomerBehaviorPredictor` — split by fixed seed and proportion, score
every candidate family on the held-out partition, select the best, and
emit one `PredictionResult` (day plus confidence) per customer. -/
def train_and_predict (data : List FeatureRow) (seed : ℕ) : TrainRun :=
  let split := splitIndices data.length seed
  let train := split.2.map fun i => data.getD i default
  let test := split.1.map fun i => data.getD i default
  let scored := candidateModels.map fun name => (name, accuracyOf name train test)
  let best := pickBest scored
  let members := List.insertionSort (· ≤ ·) (data.map FeatureRow.member).dedup
  { test_indices := split.1
    train_indices := split.2
    best_model := best.1
    best_score := best.2
    results := members.map fun m =>
      let p := predictWith best.1 train m
      { member := m, predicted_day := p.1, confidence := p.2 } }

/-- The fixed set of segment labels the lookup can produce. -/
def segmentLabels : List String :=
  ["Champions", "Loyal Customers", "Potential Loyalists", "New Customers",
   "At Risk", "Cannot Lose Them", "Others"]

/-- The five quintile score values. -/
def scores5 : List ℕ := [1, 2, 3, 4, 5]

/-- The list `[1, 2, ..., n]`. -/
def ascN (n : ℕ) : List ℕ := (List.range n).map (· + 1)

/-- The list `[1, 2, ..., n]` as rationals: the sorted rank column. -/
def ascQ (n : ℕ) : List ℚ := (ascN n).map fun k => ((k : ℕ) : ℚ)

/-- The value of the `j`-th quintile bin edge over the rank column of a
sample of size `n`: `1 + j*(n-1)/5`. -/
def edgeAt (n j : ℕ) : ℚ := 1 + ((j * (n - 1) : ℕ) : ℚ) / 5

/-- A table with exactly 4 distinct customers and pairwise distinct
recency values. -/
def exRows4 : List Txn :=
  [{ member := 1, item := "a", date := 0 },
   { member := 2, item := "a", date := 10 },
   { member := 3, item := "a", date := 20 },
   { member := 4, item := "a", date := 30 }]

/-- A table with exactly 5 distinct customers and pairwise distinct
recency values. -/
def exRows5 : List Txn :=
  [{ member := 1, item := "a", date := 0 },
   { member := 2, item := "b", date := 10 },
   { member := 3, item := "a", date := 20 },
   { member := 4, item := "b", date := 30 },
   { member := 5, item := "a", date := 40 }]

/-- A one-transaction table. -/
def exRows1 : List Txn := [{ member := 7, item := "a", date := 5 }]

/-- A small engineered-feature table. -/
def exFeatures : List FeatureRow :=
  [{ member := 1, itemCode := 0, day_of_month := 5 },
   { member := 2, itemCode := 1, day_of_month := 7 },
   { member := 1, itemCode := 1, day_of_month := 5 }]

theorem foldl_min_le (l : List ℤ) (a : ℤ) : l.foldl min a ≤ a := by
  induction l generalizing a with
  | nil => simp
  | cons x t ih => exact le_trans (ih (min a x)) (min_le_left a x)

theorem le_foldl_max (l : List ℤ) (a : ℤ) : a ≤ l.foldl max a := by
  induction l generalizing a with
  | nil => simp
  | cons x t ih => exact le_trans (le_max_left a x) (ih (max a x))

theorem listMin_le_listMax (l : List ℤ) : listMin l ≤ listMax l :=
  le_trans (foldl_min_le l _) (le_foldl_max l _)

/-- Claim C1: the `Segment` label is a total deterministic function of
the 3-character `RFM_Score` code — every code of each fixed lookup list
maps to its listed label, every code outside all lists maps to
`Others`, and re-running segmentation on identical input yields
identical assignments. -/
theorem c1_segment_total_deterministic :
    (∀ code : String,
      (code ∈ championsCodes → segment_customers code = "Champions") ∧
      (code ∈ loyalCodes → segment_customers code = "Loyal Customers") ∧
      (code ∈ potentialCodes → segment_customers code = "Potential Loyalists") ∧
      (code ∈ newCustomerCodes → segment_customers code = "New Customers") ∧
      (code ∈ atRiskCodes → segment_customers code = "At Risk") ∧
      (code ∈ cannotLoseCodes → segment_customers code = "Cannot Lose Them") ∧
      (code ∉ championsCodes → code ∉ loyalCodes → code ∉ potentialCodes →
        code ∉ newCustomerCodes → code ∉ atRiskCodes → code ∉ cannotLoseCodes →
        segment_customers code = "Others")) ∧
    ∀ input : Option (List Txn),
      get_customer_segments input = get_customer_segments input := by
  constructor
  · intro code
    refine ⟨fun h => ?_, fun h => ?_, fun h => ?_, fun h => ?_, fun h => ?_,
      fun h => ?_, fun h1 h2 h3 h4 h5 h6 => ?_⟩
    · fin_cases h <;> rfl
    · fin_cases h <;> rfl
    · fin_cases h <;> rfl
    · fin_cases h <;> rfl
    · fin_cases h <;> rfl
    · fin_cases h <;> rfl
    · simp only [segment_customers, if_neg h1, if_neg h2, if_neg h3, if_neg h4,
        if_neg h5, if_neg h6]
  · intro input
    rfl

theorem c1_segment_total_deterministic_witness :
    segment_customers "555" = "Champions" ∧ segment_customers "111" = "Others" :=
  ⟨(c1_segment_total_deterministic.1 "555").1 (by decide),
   (c1_segment_total_deterministic.1 "111").2.2.2.2.2.2 (by decide) (by decide)
     (by decide) (by decide) (by decide) (by decide)⟩

/-- Claim C6: invoking `clean_data` before raw data is loaded fails with
the state error `"Data not loaded. Call load_data() first."` (no
augmented table is produced). -/
theorem c6_clean_data_requires_load (p : DataProcessor) (h : p.df = none) :
    clean_data p = .error "Data not loaded. Call load_data() first." := by
  unfold clean_data
  rw [h]

theorem c6_clean_data_requires_load_witness :
    clean_data { df := none, cleaned_df := none } =
      .error "Data not loaded. Call load_data() first." :=
  c6_clean_data_requires_load { df := none, cleaned_df := none } rfl

/-- Claim C9: `clean_data` builds the augmented table on a copy — after
a successful call the stored raw table equals its value immediately
after loading. -/
theorem c9_clean_data_preserves_raw (p : DataProcessor) (rows : List Txn)
    (p' : DataProcessor) (h : clean_data (load_data p rows) = .ok p') :
    p'.df = (load_data p rows).df ∧ p'.df = some rows := by
  have h2 : ({ df := some rows, cleaned_df := some (cleaned_rows rows) } :
      DataProcessor) = p' := Except.ok.inj h
  subst h2
  exact ⟨rfl, rfl⟩

theorem c9_clean_data_preserves_raw_witness :
    (clean_data (load_data { df := none, cleaned_df := none } exRows1)).map
      DataProcessor.df = Except.ok (some exRows1) := by
  have hE : clean_data (load_data { df := none, cleaned_df := none } exRows1)
      = .ok { df := some exRows1, cleaned_df := some (cleaned_rows exRows1) } := rfl
  rw [hE]
  exact congrArg Except.ok
    (c9_clean_data_preserves_raw { df := none, cleaned_df := none } exRows1 _ hE).2

/-- Claim C10: in the per-customer statistics of `clean_data`, tenure is
non-negative (last purchase is never before the first within a group),
so the denominator `tenure_days + 1` of `purchase_frequency` is at least
1; a customer with a single transaction gets `tenure_days = 0` and
`purchase_frequency = total_purchases`. -/
theorem c10_tenure_nonneg (rows : List Txn) (s : CustomerStat)
    (h : s ∈ customer_stats rows) :
    0 ≤ s.tenure_days ∧ 1 ≤ s.tenure_days + 1 ∧
      (s.total_purchases = 1 →
        s.tenure_days = 0 ∧ s.purchase_frequency = (s.total_purchases : ℚ)) := by
  obtain ⟨m, hm, rfl⟩ := List.mem_map.mp h
  refine ⟨?_, ?_, ?_⟩
  · exact sub_nonneg.mpr (listMin_le_listMax _)
  · show (1 : ℤ) ≤ (listMax ((memberRows rows m).map Txn.date) -
      listMin ((memberRows rows m).map Txn.date)) + 1
    have := listMin_le_listMax ((memberRows rows m).map Txn.date)
    omega
  · intro h1
    have h1' : (memberRows rows m).length = 1 := h1
    obtain ⟨a, ha⟩ := List.length_eq_one.mp h1'
    constructor
    · show listMax ((memberRows rows m).map Txn.date) -
        listMin ((memberRows rows m).map Txn.date) = 0
      rw [ha]
      simp [listMax, listMin]
    · show ((memberRows rows m).length : ℚ) /
          (((listMax ((memberRows rows m).map Txn.date) -
            listMin ((memberRows rows m).map Txn.date) : ℤ) : ℚ) + 1) =
          ((memberRows rows m).length : ℚ)
      rw [ha]
      simp [listMax, listMin]

theorem c10_tenure_nonneg_witness :
    0 ≤ ((customer_stats exRows1).headD default).tenure_days ∧
      1 ≤ ((customer_stats exRows1).headD default).tenure_days + 1 ∧
      (((customer_stats exRows1).headD default).total_purchases = 1 →
        ((customer_stats exRows1).headD default).tenure_days = 0 ∧
          ((customer_stats exRows1).headD default).purchase_frequency =
            (((customer_stats exRows1).headD default).total_purchases : ℚ)) :=
  c10_tenure_nonneg exRows1 _ (of_decide_eq_true (by with_unfolding_all rfl))

/-- Claim C8: the campaign classification is a total deterministic
function of `total_purchases` alone — `> 10` exactly characterises
`high_value`, `≤ 3` exactly characterises `low_engagement`, every other
value is `regular`, matching the two dataframe filters of `main.py`. -/
theorem c8_campaign_bucket_total :
    (∀ n : ℕ,
      (campaign_bucket n = .high_value ↔ 10 < n) ∧
      (campaign_bucket n = .low_engagement ↔ n ≤ 3) ∧
      (campaign_bucket n = .regular ↔ (3 < n ∧ n ≤ 10))) ∧
    (∀ (cs : List CustomerRecord) (c : CustomerRecord),
      (c ∈ high_value_customers cs ↔ (c ∈ cs ∧ 10 < c.purchase_count)) ∧
      (c ∈ low_engagement_customers cs ↔ (c ∈ cs ∧ c.purchase_count ≤ 3))) := by
  constructor
  · intro n
    unfold campaign_bucket
    split_ifs with hA hB
    · refine ⟨by simp_all, ?_, ?_⟩
      · simp only [reduceCtorEq, false_iff]
        omega
      · simp only [reduceCtorEq, false_iff]
        omega
    · refine ⟨?_, ?_, ?_⟩ <;> simp_all
    · refine ⟨?_, ?_, ?_⟩ <;> simp_all
  · intro cs c
    exact ⟨by simp [high_value_customers, List.mem_filter],
      by simp [low_engagement_customers, List.mem_filter]⟩

/-- Claim C7 — `src/models/predictor.py` is not part of the sources, so
the trainer is modelled from the spec as a pure function of the input
and the seed: two independent runs on a fixed input and seed produce an
identical held-out split, the same selected `best_model` name, and an
identical set of per-customer prediction results. -/
theorem c7_training_deterministic (data : List FeatureRow) (seed : ℕ)
    (r1 r2 : TrainRun)
    (h1 : r1 = train_and_predict data seed)
    (h2 : r2 = train_and_predict data seed) :
    r1.test_indices = r2.test_indices ∧ r1.train_indices = r2.train_indices ∧
      r1.best_model = r2.best_model ∧ r1.results = r2.results := by
  subst h1
  subst h2
  exact ⟨rfl, rfl, rfl, rfl⟩

theorem c7_training_deterministic_witness :
    (train_and_predict exFeatures 42).test_indices =
        (train_and_predict exFeatures 42).test_indices ∧
      (train_and_predict exFeatures 42).train_indices =
        (train_and_predict exFeatures 42).train_indices ∧
      (train_and_predict exFeatures 42).best_model =
        (train_and_predict exFeatures 42).best_model ∧
      (train_and_predict exFeatures 42).results =
        (train_and_predict exFeatures 42).results :=
  c7_training_deterministic exFeatures 42 _ _ rfl rfl

theorem getD_eq_getElem' {α : Type} (l : List α) (d : α) (i : ℕ) (h : i < l.length) :
    l.getD i d = l[i] := by
  simp [List.getD_eq_getElem?_getD, List.getElem?_eq_getElem h]

theorem countP_lt_add_countP_eq (x : ℚ) (l : List ℚ) :
    (l.countP fun y => decide (y < x)) + (l.countP fun y => decide (y = x)) =
      l.countP fun y => decide (y ≤ x) := by
  induction l with
  | nil => rfl
  | cons a t ih =>
    by_cases h1 : a < x
    · rw [List.countP_cons_of_pos _ _ (by simpa using h1),
        List.countP_cons_of_neg _ _ (by simp [ne_of_lt h1]),
        List.countP_cons_of_pos _ _ (by simpa using le_of_lt h1)]
      omega
    · by_cases h2 : a = x
      · rw [List.countP_cons_of_neg _ _ (by simpa using h1),
          List.countP_cons_of_pos _ _ (by simpa using h2),
          List.countP_cons_of_pos _ _ (by simp [le_of_eq h2])]
        omega
      · have h3 : x < a := lt_of_le_of_ne (not_lt.mp h1) (Ne.symm h2)
        rw [List.countP_cons_of_neg _ _ (by simpa using h1),
          List.countP_cons_of_neg _ _ (by simpa using h2),
          List.countP_cons_of_neg _ _ (by simp [not_le_of_gt h3])]
        omega

theorem count_eq_take_lt (xs : List ℚ) (i : ℕ) (h : i < xs.length) :
    ((xs.take i).countP fun y => decide (y = xs.getD i 0)) + 1 ≤
      xs.countP fun y => decide (y = xs.getD i 0) := by
  obtain ⟨v, hv⟩ : ∃ v, xs.getD i 0 = v := ⟨_, rfl⟩
  rw [hv]
  conv_rhs => rw [← List.take_append_drop i xs]
  rw [List.countP_append, List.drop_eq_getElem_cons h, List.countP_cons_of_pos]
  · omega
  · simp only [decide_eq_true_eq]
    rw [← getD_eq_getElem' xs 0 i h]
    exact hv

theorem rankN_lt_of_val_lt (xs : List ℚ) (i j : ℕ) (hi : i < xs.length)
    (_hj : j < xs.length) (hv : xs.getD i 0 < xs.getD j 0) :
    rankN xs i < rankN xs j := by
  unfold rankN
  have h1 : (xs.countP fun y => decide (y ≤ xs.getD i 0)) ≤
      xs.countP fun y => decide (y < xs.getD j 0) := by
    apply List.countP_mono_left
    intro y hy hp
    simp only [decide_eq_true_eq] at hp ⊢
    exact lt_of_le_of_lt hp hv
  have h2 := countP_lt_add_countP_eq (xs.getD i 0) xs
  have h3 := count_eq_take_lt xs i hi
  omega

theorem rankN_lt_of_val_eq (xs : List ℚ) (i j : ℕ) (hij : i < j)
    (hj : j < xs.length) (hv : xs.getD i 0 = xs.getD j 0) :
    rankN xs i < rankN xs j := by
  have hi : i < xs.length := lt_trans hij hj
  unfold rankN
  rw [← hv]
  obtain ⟨v, hv'⟩ : ∃ v, xs.getD i 0 = v := ⟨_, rfl⟩
  rw [hv']
  have hkey : ((xs.take i).countP fun y => decide (y = v)) + 1 ≤
      (xs.take j).countP fun y => decide (y = v) := by
    have hsplit : xs.take j = xs.take i ++ (xs.drop i).take (j - i) := by
      rw [← List.take_add]
      congr 1
      omega
    rw [hsplit, List.countP_append, List.drop_eq_getElem_cons hi,
      show j - i = (j - i - 1) + 1 by omega, List.take_succ_cons,
      List.countP_cons_of_pos]
    · omega
    · simp only [decide_eq_true_eq]
      rw [← getD_eq_getElem' xs 0 i hi]
      exact hv'
  omega

theorem rankN_ge_one (xs : List ℚ) (i : ℕ) : 1 ≤ rankN xs i := by
  unfold rankN
  omega

theorem rankN_le (xs : List ℚ) (i : ℕ) (hi : i < xs.length) :
    rankN xs i ≤ xs.length := by
  unfold rankN
  have h2 := countP_lt_add_countP_eq (xs.getD i 0) xs
  have h3 := count_eq_take_lt xs i hi
  have h4 : (xs.countP fun y => decide (y ≤ xs.getD i 0)) ≤ xs.length :=
    List.countP_le_length _
  omega

theorem rankN_inj (xs : List ℚ) (i j : ℕ) (hi : i < xs.length)
    (hj : j < xs.length) (hne : i ≠ j) : rankN xs i ≠ rankN xs j := by
  rcases lt_trichotomy (xs.getD i 0) (xs.getD j 0) with hv | hv | hv
  · exact Nat.ne_of_lt (rankN_lt_of_val_lt xs i j hi hj hv)
  · rcases Nat.lt_or_ge i j with hij | hij
    · exact Nat.ne_of_lt (rankN_lt_of_val_eq xs i j hij hj hv)
    · have hij' : j < i := by omega
      exact (Nat.ne_of_lt (rankN_lt_of_val_eq xs j i hij' hi hv.symm)).symm
  · exact (Nat.ne_of_lt (rankN_lt_of_val_lt xs j i hj hi hv)).symm

theorem rankFirst_length (xs : List ℚ) : (rankFirst xs).length = xs.length := by
  simp [rankFirst]

theorem ascQ_length (n : ℕ) : (ascQ n).length = n := by
  simp [ascQ, ascN]

theorem rankFirst_perm (xs : List ℚ) : (rankFirst xs).Perm (ascQ xs.length) := by
  have hnd : (rankFirst xs).Nodup := by
    unfold rankFirst
    apply List.Nodup.map_on _ (List.nodup_range _)
    intro i hi j hj hEq
    by_contra hne
    exact rankN_inj xs i j (List.mem_range.mp hi) (List.mem_range.mp hj) hne
      (by exact_mod_cast hEq)
  have hsub : rankFirst xs ⊆ ascQ xs.length := by
    intro v hv
    unfold rankFirst at hv
    obtain ⟨i, hi, rfl⟩ := List.mem_map.mp hv
    have hi' := List.mem_range.mp hi
    unfold ascQ ascN
    rw [List.map_map]
    apply List.mem_map.mpr
    refine ⟨rankN xs i - 1, List.mem_range.mpr ?_, ?_⟩
    · have h1 := rankN_le xs i hi'
      have h2 := rankN_ge_one xs i
      omega
    · have h2 := rankN_ge_one xs i
      show ((rankN xs i - 1 + 1 : ℕ) : ℚ) = ((rankN xs i : ℕ) : ℚ)
      congr 1
  have hlen : (ascQ xs.length).length ≤ (rankFirst xs).length := by
    rw [ascQ_length, rankFirst_length]
  exact (hnd.subperm hsub).perm_of_length_le hlen

theorem sortQ_rankFirst (xs : List ℚ) : sortQ (rankFirst xs) = ascQ xs.length := by
  have hs1 : List.Sorted (· ≤ ·) (sortQ (rankFirst xs)) :=
    List.sorted_insertionSort _ _
  have hs2 : List.Sorted (· ≤ ·) (ascQ xs.length) := by
    show List.Pairwise (· ≤ ·) (ascQ xs.length)
    unfold ascQ ascN
    rw [List.map_map]
    refine (List.pairwise_lt_range _).map _ ?_
    intro a b h
    show ((a + 1 : ℕ) : ℚ) ≤ ((b + 1 : ℕ) : ℚ)
    exact_mod_cast Nat.succ_le_succ (le_of_lt h)
  exact List.eq_of_perm_of_sorted
    ((List.perm_insertionSort _ _).trans (rankFirst_perm xs)) hs1 hs2

theorem ascQ_getD (n i : ℕ) (h : i < n) : (ascQ n).getD i 0 = ((i + 1 : ℕ) : ℚ) := by
  rw [getD_eq_getElem' _ _ i (by rw [ascQ_length]; exact h)]
  simp [ascQ, ascN]

theorem floor_natCast_div_five (a : ℕ) :
    Int.floor ((a : ℚ) / 5) = ((a / 5 : ℕ) : ℤ) := by
  rw [Int.floor_eq_iff]
  constructor
  · rw [le_div_iff₀ (by norm_num : (0:ℚ) < 5)]
    exact_mod_cast Nat.div_mul_le_self a 5
  · rw [div_lt_iff₀ (by norm_num : (0:ℚ) < 5)]
    have h : a < (a / 5 + 1) * 5 := by omega
    push_cast
    exact_mod_cast h

theorem quantileSorted_ascQ (n : ℕ) (hn : 1 ≤ n) (j : ℕ) (hj : j ≤ 5) :
    quantileSorted (ascQ n) ((j : ℚ) / 5) = edgeAt n j := by
  have hcast : ((n : ℚ) - 1) = ((n - 1 : ℕ) : ℚ) := by
    rw [Nat.cast_sub hn, Nat.cast_one]
  have hmul : (j : ℚ) / 5 * ((n : ℚ) - 1) = ((j * (n - 1) : ℕ) : ℚ) / 5 := by
    rw [hcast]
    push_cast
    ring
  have hfloor : (Int.floor (((j * (n - 1) : ℕ) : ℚ) / 5)).toNat = j * (n - 1) / 5 := by
    rw [floor_natCast_div_five]
    exact Int.toNat_ofNat _
  simp only [quantileSorted, ascQ_length, hmul, hfloor]
  rcases Nat.eq_zero_or_pos (n - 1) with hr | hr
  · have hn1 : n = 1 := by omega
    subst hn1
    rw [show j * (1 - 1) = 0 from by omega]
    norm_num
    simp [ascQ, ascN, edgeAt, List.range_succ]
  · interval_cases j
    · rw [show (0 : ℕ) * (n - 1) = 0 from by omega, Nat.zero_div]
      rw [min_eq_left (by omega), min_eq_left (by omega)]
      rw [ascQ_getD n 0 (by omega), ascQ_getD n 1 (by omega)]
      unfold edgeAt
      push_cast
      ring
    · have hlt : 1 * (n - 1) / 5 < n - 1 := by omega
      rw [min_eq_left (by omega), min_eq_left (by omega)]
      rw [ascQ_getD n _ (by omega), ascQ_getD n _ (by omega)]
      unfold edgeAt
      push_cast
      ring
    · have hlt : 2 * (n - 1) / 5 < n - 1 := by omega
      rw [min_eq_left (by omega), min_eq_left (by omega)]
      rw [ascQ_getD n _ (by omega), ascQ_getD n _ (by omega)]
      unfold edgeAt
      push_cast
      ring
    · have hlt : 3 * (n - 1) / 5 < n - 1 := by omega
      rw [min_eq_left (by omega), min_eq_left (by omega)]
      rw [ascQ_getD n _ (by omega), ascQ_getD n _ (by omega)]
      unfold edgeAt
      push_cast
      ring
    · have hlt : 4 * (n - 1) / 5 < n - 1 := by omega
      rw [min_eq_left (by omega), min_eq_left (by omega)]
      rw [ascQ_getD n _ (by omega), ascQ_getD n _ (by omega)]
      unfold edgeAt
      push_cast
      ring
    · have hi5 : 5 * (n - 1) / 5 = n - 1 := by omega
      rw [hi5, min_self, min_eq_right (by omega)]
      rw [ascQ_getD n _ (by omega)]
      unfold edgeAt
      push_cast
      ring

theorem qEdges_rankFirst (xs : List ℚ) (hn : 1 ≤ xs.length) :
    qEdges (rankFirst xs) = (List.range 6).map (edgeAt xs.length) := by
  unfold qEdges
  rw [sortQ_rankFirst]
  apply List.map_congr_left
  intro j hj
  exact quantileSorted_ascQ xs.length hn j (by have := List.mem_range.mp hj; omega)

theorem edgeAt_lt (n : ℕ) (h2 : 2 ≤ n) (a b : ℕ) (hab : a < b) :
    edgeAt n a < edgeAt n b := by
  unfold edgeAt
  have h1 : a * (n - 1) < b * (n - 1) :=
    Nat.mul_lt_mul_of_lt_of_le hab (le_refl _) (by omega)
  have h1' : ((a * (n - 1) : ℕ) : ℚ) < ((b * (n - 1) : ℕ) : ℚ) := by exact_mod_cast h1
  linarith

theorem qEdges_rankFirst_nodup (xs : List ℚ) (h2 : 2 ≤ xs.length) :
    (qEdges (rankFirst xs)).Nodup := by
  rw [qEdges_rankFirst xs (by omega)]
  apply List.Nodup.map_on _ (List.nodup_range 6)
  intro a ha b hb hEq
  by_contra hne
  rcases Nat.lt_or_ge a b with h | h
  · exact absurd hEq (ne_of_lt (edgeAt_lt _ h2 a b h))
  · have hba : b < a := by omega
    exact absurd hEq.symm (ne_of_lt (edgeAt_lt _ h2 b a hba))

theorem bucketOf_le_four (e : List ℚ) (v : ℚ) : bucketOf e v ≤ 4 := by
  unfold bucketOf
  split_ifs <;> omega

theorem labels_getD_asc (b : ℕ) (hb : b ≤ 4) :
    List.getD [1, 2, 3, 4, 5] b 0 = b + 1 := by
  interval_cases b <;> rfl

theorem labels_getD_desc (b : ℕ) (hb : b ≤ 4) :
    List.getD [5, 4, 3, 2, 1] b 0 = 5 - b := by
  interval_cases b <;> rfl

theorem countP_range_le5 (c N : ℕ) :
    (List.range N).countP (fun m => decide (5 * m ≤ c)) = min (c / 5 + 1) N := by
  induction N with
  | zero => simp
  | succ N ih =>
    rw [List.range_succ, List.countP_append, ih]
    by_cases h : 5 * N ≤ c <;>
      simp only [List.countP_cons, List.countP_nil, h, decide_eq_true_eq,
        if_pos, if_neg, decide_eq_false_iff_not, not_false_iff] <;>
      simp [h] <;> omega

theorem countP_range_band5 (a b N : ℕ) (hab : a ≤ b) :
    (List.range N).countP (fun m => decide (a < 5 * m) && decide (5 * m ≤ b)) =
      min (b / 5 + 1) N - min (a / 5 + 1) N := by
  induction N with
  | zero => simp
  | succ N ih =>
    rw [List.range_succ, List.countP_append, ih]
    by_cases h1 : a < 5 * N <;> by_cases h2 : 5 * N ≤ b <;>
      simp [List.countP_cons, h1, h2] <;> omega

theorem countP_range_gt5 (a N : ℕ) :
    (List.range N).countP (fun m => decide (a < 5 * m)) = N - min (a / 5 + 1) N := by
  induction N with
  | zero => simp
  | succ N ih =>
    rw [List.range_succ, List.countP_append, ih]
    by_cases h : a < 5 * N <;> simp [List.countP_cons, h] <;> omega

theorem cast_le_edgeAt (m k n : ℕ) :
    (((m + 1 : ℕ) : ℚ) ≤ edgeAt n k) ↔ 5 * m ≤ k * (n - 1) := by
  unfold edgeAt
  rw [show ((m + 1 : ℕ) : ℚ) = 1 + (m : ℚ) from by push_cast; ring]
  rw [add_le_add_iff_left]
  rw [le_div_iff₀ (by norm_num : (0:ℚ) < 5)]
  constructor
  · intro h
    have h' : m * 5 ≤ k * (n - 1) := by exact_mod_cast h
    omega
  · intro h
    exact_mod_cast (show m * 5 ≤ k * (n - 1) from by omega)

theorem getD_map_range (f : ℕ → ℚ) (N m : ℕ) (h : m < N) :
    ((List.range N).map f).getD m 0 = f m := by
  rw [getD_eq_getElem' _ _ m (by simpa using h)]
  simp

theorem bucketOf_rank_val (n m : ℕ) :
    bucketOf ((List.range 6).map (edgeAt n)) ((m + 1 : ℕ) : ℚ) =
      if 5 * m ≤ 1 * (n - 1) then 0
      else if 5 * m ≤ 2 * (n - 1) then 1
      else if 5 * m ≤ 3 * (n - 1) then 2
      else if 5 * m ≤ 4 * (n - 1) then 3
      else 4 := by
  unfold bucketOf
  rw [getD_map_range _ _ 1 (by norm_num), getD_map_range _ _ 2 (by norm_num),
    getD_map_range _ _ 3 (by norm_num), getD_map_range _ _ 4 (by norm_num)]
  simp only [cast_le_edgeAt]

theorem rank_scores_perm (xs : List ℚ) (h2 : 2 ≤ xs.length) :
    ((rankFirst xs).map fun v =>
        List.getD [1, 2, 3, 4, 5] (bucketOf (qEdges (rankFirst xs)) v) 0).Perm
      ((List.range xs.length).map fun m =>
        if 5 * m ≤ 1 * (xs.length - 1) then 1
        else if 5 * m ≤ 2 * (xs.length - 1) then 2
        else if 5 * m ≤ 3 * (xs.length - 1) then 3
        else if 5 * m ≤ 4 * (xs.length - 1) then 4
        else 5) := by
  rw [qEdges_rankFirst xs (by omega)]
  refine ((rankFirst_perm xs).map fun v =>
    List.getD [1, 2, 3, 4, 5]
      (bucketOf ((List.range 6).map (edgeAt xs.length)) v) 0).trans ?_
  have heq : (ascQ xs.length).map (fun v =>
      List.getD [1, 2, 3, 4, 5]
        (bucketOf ((List.range 6).map (edgeAt xs.length)) v) 0) =
      (List.range xs.length).map fun m =>
        if 5 * m ≤ 1 * (xs.length - 1) then 1
        else if 5 * m ≤ 2 * (xs.length - 1) then 2
        else if 5 * m ≤ 3 * (xs.length - 1) then 3
        else if 5 * m ≤ 4 * (xs.length - 1) then 4
        else 5 := by
    unfold ascQ ascN
    rw [List.map_map, List.map_map]
    apply List.map_congr_left
    intro m hm
    simp only [Function.comp_apply]
    rw [bucketOf_rank_val]
    split_ifs <;> rfl
  exact heq ▸ List.Perm.refl _

theorem countP_congr2 {α : Type} (l : List α) (p q : α → Bool)
    (h : ∀ x ∈ l, p x = true ↔ q x = true) : l.countP p = l.countP q := by
  induction l with
  | nil => rfl
  | cons a t ih =>
    rw [List.countP_cons, List.countP_cons,
      ih (fun x hx => h x (List.mem_cons_of_mem a hx))]
    have ha := h a (List.mem_cons_self a t)
    by_cases hp : p a = true
    · rw [if_pos hp, if_pos (ha.mp hp)]
    · rw [if_neg hp, if_neg (fun hq => hp (ha.mpr hq))]

theorem rank_scores_count (xs : List ℚ) (h2 : 2 ≤ xs.length) (j : ℕ) (hj : j < 5) :
    ((rankFirst xs).map fun v =>
        List.getD [1, 2, 3, 4, 5] (bucketOf (qEdges (rankFirst xs)) v) 0).countP
      (fun s => decide (s = j + 1)) =
    (if j = 0 then (xs.length - 1) / 5 + 1
     else ((j + 1) * (xs.length - 1)) / 5 - (j * (xs.length - 1)) / 5) := by
  rw [(rank_scores_perm xs h2).countP_eq, List.countP_map]
  interval_cases j
  · rw [countP_congr2 _ _ (fun m => decide (5 * m ≤ 1 * (xs.length - 1)))
      (fun m _hm => by
        simp only [Function.comp_apply]
        split_ifs with h1 h2 h3 h4 <;> simp_all)]
    rw [countP_range_le5]
    rw [if_pos rfl]
    omega
  · rw [countP_congr2 _ _ (fun m =>
      decide (1 * (xs.length - 1) < 5 * m) && decide (5 * m ≤ 2 * (xs.length - 1)))
      (fun m _hm => by
        simp only [Function.comp_apply]
        split_ifs with h1 h2 h3 h4 <;> simp_all [Bool.and_eq_true])]
    rw [countP_range_band5 _ _ _ (by omega)]
    rw [if_neg (by omega)]
    omega
  · rw [countP_congr2 _ _ (fun m =>
      decide (2 * (xs.length - 1) < 5 * m) && decide (5 * m ≤ 3 * (xs.length - 1)))
      (fun m _hm => by
        simp only [Function.comp_apply]
        split_ifs with h1 h2 h3 h4 <;> simp_all [Bool.and_eq_true]
        omega)]
    rw [countP_range_band5 _ _ _ (by omega)]
    rw [if_neg (by omega)]
    omega
  · rw [countP_congr2 _ _ (fun m =>
      decide (3 * (xs.length - 1) < 5 * m) && decide (5 * m ≤ 4 * (xs.length - 1)))
      (fun m _hm => by
        simp only [Function.comp_apply]
        split_ifs with h1 h2 h3 h4 <;> simp_all [Bool.and_eq_true] <;> omega)]
    rw [countP_range_band5 _ _ _ (by omega)]
    rw [if_neg (by omega)]
    omega
  · rw [countP_congr2 _ _ (fun m => decide (4 * (xs.length - 1) < 5 * m))
      (fun m _hm => by
        simp only [Function.comp_apply]
        split_ifs with h1 h2 h3 h4 <;> simp_all <;> omega)]
    rw [countP_range_gt5]
    rw [if_neg (by omega)]
    omega

theorem sortedMembers_length (rows : List Txn) :
    (sortedMembers rows).length = distinct_customers rows := by
  unfold sortedMembers distinct_customers
  exact (List.perm_insertionSort _ _).length_eq

theorem qcut5_rank_ok (xs : List ℚ) (h2 : 2 ≤ xs.length) :
    qcut5 (rankFirst xs) [1, 2, 3, 4, 5] =
      .ok ((rankFirst xs).map fun v =>
        List.getD [1, 2, 3, 4, 5] (bucketOf (qEdges (rankFirst xs)) v) 0) := by
  unfold qcut5
  rw [if_pos (qEdges_rankFirst_nodup xs h2)]

theorem rank_scores_balanced (xs : List ℚ) (h2 : 2 ≤ xs.length) (s t : ℕ)
    (hs : s ∈ scores5) (ht : t ∈ scores5) :
    ((rankFirst xs).map fun v =>
        List.getD [1, 2, 3, 4, 5] (bucketOf (qEdges (rankFirst xs)) v) 0).countP
      (fun v => decide (v = s)) ≤
    ((rankFirst xs).map fun v =>
        List.getD [1, 2, 3, 4, 5] (bucketOf (qEdges (rankFirst xs)) v) 0).countP
      (fun v => decide (v = t)) + 1 := by
  have c1 : ((rankFirst xs).map fun v =>
      List.getD [1, 2, 3, 4, 5] (bucketOf (qEdges (rankFirst xs)) v) 0).countP
        (fun v => decide (v = 1)) = (xs.length - 1) / 5 + 1 := by
    have h := rank_scores_count xs h2 0 (by norm_num)
    rw [if_pos rfl] at h
    exact h
  have c2 : ((rankFirst xs).map fun v =>
      List.getD [1, 2, 3, 4, 5] (bucketOf (qEdges (rankFirst xs)) v) 0).countP
        (fun v => decide (v = 2)) =
      2 * (xs.length - 1) / 5 - 1 * (xs.length - 1) / 5 := by
    have h := rank_scores_count xs h2 1 (by norm_num)
    rw [if_neg (by norm_num)] at h
    exact h
  have c3 : ((rankFirst xs).map fun v =>
      List.getD [1, 2, 3, 4, 5] (bucketOf (qEdges (rankFirst xs)) v) 0).countP
        (fun v => decide (v = 3)) =
      3 * (xs.length - 1) / 5 - 2 * (xs.length - 1) / 5 := by
    have h := rank_scores_count xs h2 2 (by norm_num)
    rw [if_neg (by norm_num)] at h
    exact h
  have c4 : ((rankFirst xs).map fun v =>
      List.getD [1, 2, 3, 4, 5] (bucketOf (qEdges (rankFirst xs)) v) 0).countP
        (fun v => decide (v = 4)) =
      4 * (xs.length - 1) / 5 - 3 * (xs.length - 1) / 5 := by
    have h := rank_scores_count xs h2 3 (by norm_num)
    rw [if_neg (by norm_num)] at h
    exact h
  have c5 : ((rankFirst xs).map fun v =>
      List.getD [1, 2, 3, 4, 5] (bucketOf (qEdges (rankFirst xs)) v) 0).countP
        (fun v => decide (v = 5)) =
      5 * (xs.length - 1) / 5 - 4 * (xs.length - 1) / 5 := by
    have h := rank_scores_count xs h2 4 (by norm_num)
    rw [if_neg (by norm_num)] at h
    exact h
  fin_cases hs <;> fin_cases ht <;>
    simp only [c1, c2, c3, c4, c5] <;> omega

theorem get_segments_ok_elim (rows : List Txn) (out : List RFMRow)
    (h : get_customer_segments (some rows) = .ok out) :
    ∃ rs fs ms,
      qcut5 ((recencyList rows).map fun z : ℤ => (z : ℚ)) [5, 4, 3, 2, 1] = .ok rs ∧
      qcut5 (rankFirst ((frequencyList rows).map fun k : ℕ => (k : ℚ))) [1, 2, 3, 4, 5]
        = .ok fs ∧
      qcut5 (rankFirst ((monetaryList rows).map fun k : ℕ => (k : ℚ))) [1, 2, 3, 4, 5]
        = .ok ms ∧
      out = (List.range (sortedMembers rows).length).map
        (mkRFMRow (sortedMembers rows) (recencyList rows) (frequencyList rows)
          (monetaryList rows) rs fs ms) := by
  simp only [get_customer_segments] at h
  rcases hR : qcut5 ((recencyList rows).map fun z : ℤ => (z : ℚ)) [5, 4, 3, 2, 1]
    with eR | rs
  · rw [hR] at h
    exact Except.noConfusion (show Except.error eR = Except.ok out from h)
  rw [hR] at h
  rcases hF : qcut5 (rankFirst ((frequencyList rows).map fun k : ℕ => (k : ℚ)))
      [1, 2, 3, 4, 5] with eF | fs
  · rw [hF] at h
    exact Except.noConfusion (show Except.error eF = Except.ok out from h)
  rw [hF] at h
  rcases hM : qcut5 (rankFirst ((monetaryList rows).map fun k : ℕ => (k : ℚ)))
      [1, 2, 3, 4, 5] with eM | ms
  · rw [hM] at h
    exact Except.noConfusion (show Except.error eM = Except.ok out from h)
  rw [hM] at h
  exact ⟨rs, fs, ms, rfl, rfl, rfl, (Except.ok.inj h).symm⟩

theorem map_getD_range_eq (l : List ℕ) (k : ℕ) (hk : l.length = k) :
    (List.range k).map (fun i => l.getD i 0) = l := by
  subst hk
  apply List.ext_getElem
  · simp
  · intro i h1 h2
    simp only [List.getElem_map, List.getElem_range]
    exact getD_eq_getElem' l 0 i (by simpa using h2)

theorem getD_map_QN (g : ℚ → ℕ) (l : List ℚ) (i : ℕ) (h : i < l.length) :
    (l.map g).getD i 0 = g (l.getD i 0) := by
  rw [getD_eq_getElem' _ _ i (by simpa using h), getD_eq_getElem' l 0 i h]
  simp

theorem getD_map_ZQ (l : List ℤ) (i : ℕ) (h : i < l.length) :
    (l.map fun z => ((z : ℤ) : ℚ)).getD i 0 = (((l.getD i 0) : ℤ) : ℚ) := by
  rw [getD_eq_getElem' _ _ i (by simpa using h), getD_eq_getElem' l 0 i h]
  simp

theorem segment_customers_mem (s : String) :
    segment_customers s ∈ segmentLabels := by
  unfold segment_customers segmentLabels
  split_ifs <;> simp

theorem sum_map_add_nat {α : Type} (f g : α → ℕ) (l : List α) :
    (l.map fun x => f x + g x).sum = (l.map f).sum + (l.map g).sum := by
  induction l with
  | nil => rfl
  | cons a t ih =>
    simp only [List.map_cons, List.sum_cons, ih]
    omega

theorem sum_ite_one (x : String) (l : List String) (hx : x ∈ l) (hnd : l.Nodup) :
    (l.map fun y => if x = y then 1 else 0).sum = 1 := by
  induction l with
  | nil => cases hx
  | cons a t ih =>
    rcases List.mem_cons.mp hx with rfl | hxt
    · have hnt : x ∉ t := (List.nodup_cons.mp hnd).1
      have hzero : (t.map fun y => if x = y then 1 else 0).sum = 0 := by
        apply List.sum_eq_zero
        intro z hz
        obtain ⟨y, hy, rfl⟩ := List.mem_map.mp hz
        rw [if_neg]
        intro hEq
        exact hnt (hEq ▸ hy)
      simp only [List.map_cons, List.sum_cons, hzero]
      simp
    · have hne : x ≠ a := by
        intro hEq
        exact (List.nodup_cons.mp hnd).1 (hEq ▸ hxt)
      simp only [List.map_cons, List.sum_cons, if_neg hne]
      rw [ih hxt (List.nodup_cons.mp hnd).2]

theorem countP_partition (l : List RFMRow)
    (hmem : ∀ row ∈ l, row.segment ∈ segmentLabels) :
    (segmentLabels.map fun lab =>
      l.countP fun row => decide (row.segment = lab)).sum = l.length := by
  induction l with
  | nil => simp
  | cons a t ih =>
    have ha := hmem a (List.mem_cons_self a t)
    have iht := ih fun r hr => hmem r (List.mem_cons_of_mem a hr)
    simp only [List.countP_cons, decide_eq_true_eq]
    rw [sum_map_add_nat (fun lab => t.countP fun row => decide (row.segment = lab))
      (fun lab => if a.segment = lab then 1 else 0), iht,
      sum_ite_one a.segment segmentLabels ha (by decide), List.length_cons]

theorem map_fScore_mk (mems : List ℕ) (recs : List ℤ)
    (freqs mons rs fs ms : List ℕ) (k : ℕ) (hk : fs.length = k) :
    ((List.range k).map (mkRFMRow mems recs freqs mons rs fs ms)).map
      RFMRow.fScore = fs := by
  rw [List.map_map]
  calc (List.range k).map (RFMRow.fScore ∘ mkRFMRow mems recs freqs mons rs fs ms)
      = (List.range k).map (fun i => fs.getD i 0) := rfl
    _ = fs := map_getD_range_eq fs k hk

theorem map_mScore_mk (mems : List ℕ) (recs : List ℤ)
    (freqs mons rs fs ms : List ℕ) (k : ℕ) (hk : ms.length = k) :
    ((List.range k).map (mkRFMRow mems recs freqs mons rs fs ms)).map
      RFMRow.mScore = ms := by
  rw [List.map_map]
  calc (List.range k).map (RFMRow.mScore ∘ mkRFMRow mems recs freqs mons rs fs ms)
      = (List.range k).map (fun i => ms.getD i 0) := rfl
    _ = ms := map_getD_range_eq ms k hk

/-- Claim C2 counterexample: a table with exactly 4 distinct customers
(pairwise distinct recency values) segments successfully — no
`InsufficientDataError` is raised by the code. -/
theorem c2_insufficient_data_counterexample :
    distinct_customers exRows4 = 4 ∧
      (get_customer_segments (some exRows4)).isOk = true :=
  ⟨by with_unfolding_all rfl, by with_unfolding_all rfl⟩

/-- Claim C2 amended: `get_customer_segments` contains no
fewer-than-5-customers check; with at least 2 distinct customers it
succeeds whenever the recency quantile bin edges are pairwise
distinct (the rank-based Frequency/Monetary edges always are), so an
input with 4 distinct customers and distinct recencies produces a
segmentation output instead of an `InsufficientDataError`. -/
theorem c2_no_minimum_customer_check (rows : List Txn)
    (h2 : 2 ≤ distinct_customers rows)
    (hr : (recency_edges rows).Nodup) :
    ∃ out, get_customer_segments (some rows) = .ok out := by
  have h2F : 2 ≤ ((frequencyList rows).map fun k : ℕ => (k : ℚ)).length := by
    rw [List.length_map]
    unfold frequencyList
    rw [List.length_map, sortedMembers_length]
    exact h2
  have h2M : 2 ≤ ((monetaryList rows).map fun k : ℕ => (k : ℚ)).length := by
    rw [List.length_map]
    unfold monetaryList
    rw [List.length_map, sortedMembers_length]
    exact h2
  have hmain : get_customer_segments (some rows) = .ok
      ((List.range (sortedMembers rows).length).map
        (mkRFMRow (sortedMembers rows) (recencyList rows) (frequencyList rows)
          (monetaryList rows)
          (((recencyList rows).map fun z : ℤ => (z : ℚ)).map fun v =>
            List.getD [5, 4, 3, 2, 1]
              (bucketOf (qEdges ((recencyList rows).map fun z : ℤ => (z : ℚ))) v) 0)
          ((rankFirst ((frequencyList rows).map fun k : ℕ => (k : ℚ))).map fun v =>
            List.getD [1, 2, 3, 4, 5]
              (bucketOf (qEdges (rankFirst
                ((frequencyList rows).map fun k : ℕ => (k : ℚ)))) v) 0)
          ((rankFirst ((monetaryList rows).map fun k : ℕ => (k : ℚ))).map fun v =>
            List.getD [1, 2, 3, 4, 5]
              (bucketOf (qEdges (rankFirst
                ((monetaryList rows).map fun k : ℕ => (k : ℚ)))) v) 0))) := by
    simp only [get_customer_segments]
    rw [show qcut5 ((recencyList rows).map fun z : ℤ => (z : ℚ)) [5, 4, 3, 2, 1] =
        .ok (((recencyList rows).map fun z : ℤ => (z : ℚ)).map fun v =>
          List.getD [5, 4, 3, 2, 1]
            (bucketOf (qEdges ((recencyList rows).map fun z : ℤ => (z : ℚ))) v) 0)
      from by
        unfold qcut5
        rw [if_pos (show (qEdges ((recencyList rows).map
          fun z : ℤ => (z : ℚ))).Nodup from hr)]]
    rw [qcut5_rank_ok _ h2F, qcut5_rank_ok _ h2M]
  exact ⟨_, hmain⟩

theorem c2_no_minimum_customer_check_witness :
    ∃ out, get_customer_segments (some exRows4) = .ok out :=
  c2_no_minimum_customer_check exRows4
    (of_decide_eq_true (by with_unfolding_all rfl))
    (of_decide_eq_true (by with_unfolding_all rfl))

/-- Claim C3: with at least 5 distinct customers the Frequency and
Monetary quintile binning (which first breaks ties through the stable
first-seen-order rank `rank(method='first')`) always succeeds, and the
five score bucket sizes differ by at most 1 customer; a successful
pipeline run carries exactly those scores in its `F_Score`/`M_Score`
columns. -/
theorem c3_quintile_buckets_balanced (rows : List Txn)
    (h5 : 5 ≤ distinct_customers rows) :
    ∃ fs ms : List ℕ,
      qcut5 (rankFirst ((frequencyList rows).map fun k : ℕ => (k : ℚ)))
        [1, 2, 3, 4, 5] = .ok fs ∧
      qcut5 (rankFirst ((monetaryList rows).map fun k : ℕ => (k : ℚ)))
        [1, 2, 3, 4, 5] = .ok ms ∧
      (∀ s ∈ scores5, ∀ t ∈ scores5,
        fs.countP (fun v => decide (v = s)) ≤
          fs.countP (fun v => decide (v = t)) + 1 ∧
        ms.countP (fun v => decide (v = s)) ≤
          ms.countP (fun v => decide (v = t)) + 1) ∧
      ∀ out, get_customer_segments (some rows) = .ok out →
        out.map RFMRow.fScore = fs ∧ out.map RFMRow.mScore = ms := by
  have h2F : 2 ≤ ((frequencyList rows).map fun k : ℕ => (k : ℚ)).length := by
    rw [List.length_map]
    unfold frequencyList
    rw [List.length_map, sortedMembers_length]
    omega
  have h2M : 2 ≤ ((monetaryList rows).map fun k : ℕ => (k : ℚ)).length := by
    rw [List.length_map]
    unfold monetaryList
    rw [List.length_map, sortedMembers_length]
    omega
  refine ⟨_, _, qcut5_rank_ok _ h2F, qcut5_rank_ok _ h2M, ?_, ?_⟩
  · intro s hs t ht
    exact ⟨rank_scores_balanced _ h2F s t hs ht,
      rank_scores_balanced _ h2M s t hs ht⟩
  · intro out hout
    obtain ⟨rs, fs', ms', hR, hF, hM, rfl⟩ := get_segments_ok_elim rows out hout
    have hfs2 := Except.ok.inj (hF.symm.trans (qcut5_rank_ok _ h2F))
    have hms2 := Except.ok.inj (hM.symm.trans (qcut5_rank_ok _ h2M))
    subst hfs2
    subst hms2
    constructor
    · refine map_fScore_mk _ _ _ _ _ _ _ _ ?_
      simp [rankFirst, frequencyList]
    · refine map_mScore_mk _ _ _ _ _ _ _ _ ?_
      simp [rankFirst, monetaryList]

theorem c3_quintile_buckets_balanced_witness :
    (5 ≤ distinct_customers exRows5) ∧
    (∃ fs ms : List ℕ,
      qcut5 (rankFirst ((frequencyList exRows5).map fun k : ℕ => (k : ℚ)))
        [1, 2, 3, 4, 5] = .ok fs ∧
      qcut5 (rankFirst ((monetaryList exRows5).map fun k : ℕ => (k : ℚ)))
        [1, 2, 3, 4, 5] = .ok ms ∧
      (∀ s ∈ scores5, ∀ t ∈ scores5,
        fs.countP (fun v => decide (v = s)) ≤
          fs.countP (fun v => decide (v = t)) + 1 ∧
        ms.countP (fun v => decide (v = s)) ≤
          ms.countP (fun v => decide (v = t)) + 1) ∧
      ∀ out, get_customer_segments (some exRows5) = .ok out →
        out.map RFMRow.fScore = fs ∧ out.map RFMRow.mScore = ms) :=
  ⟨of_decide_eq_true (by with_unfolding_all rfl),
   c3_quintile_buckets_balanced exRows5
     (of_decide_eq_true (by with_unfolding_all rfl))⟩

/-- Claim C4: a successful segmentation emits exactly one row per
distinct customer, and summing the per-segment customer counts over the
seven labels recovers the distinct customer count of the input. -/
theorem c4_one_row_per_customer (rows : List Txn) (out : List RFMRow)
    (h : get_customer_segments (some rows) = .ok out) :
    out.length = distinct_customers rows ∧
      (segmentLabels.map fun lab =>
        out.countP fun row => decide (row.segment = lab)).sum =
      distinct_customers rows := by
  obtain ⟨rs, fs, ms, hR, hF, hM, rfl⟩ := get_segments_ok_elim rows out h
  have hmem : ∀ row ∈ (List.range (sortedMembers rows).length).map
      (mkRFMRow (sortedMembers rows) (recencyList rows) (frequencyList rows)
        (monetaryList rows) rs fs ms), row.segment ∈ segmentLabels := by
    intro row hrow
    obtain ⟨i, _hi, rfl⟩ := List.mem_map.mp hrow
    exact segment_customers_mem _
  constructor
  · rw [List.length_map, List.length_range, sortedMembers_length]
  · rw [countP_partition _ hmem, List.length_map, List.length_range,
      sortedMembers_length]

theorem c4_one_row_per_customer_witness :
    ((get_customer_segments (some exRows5)).toOption.getD []).length =
        distinct_customers exRows5 ∧
      (segmentLabels.map fun lab =>
        ((get_customer_segments (some exRows5)).toOption.getD []).countP
          fun row => decide (row.segment = lab)).sum =
      distinct_customers exRows5 :=
  c4_one_row_per_customer exRows5 _ (by with_unfolding_all rfl)

/-- Claim C5: `R_Score` is produced by quintile-binning the raw recency
values (bucket boundaries from the raw values, no tie-breaking rank)
with the labels reversed to 5..1: every output row's score equals
`5 - bucket`, so a strictly lower recency bucket receives a strictly
higher `R_Score`. -/
theorem c5_recency_labels_reversed (rows : List Txn) (out : List RFMRow)
    (h : get_customer_segments (some rows) = .ok out) :
    (∀ row ∈ out,
      row.rScore = 5 - bucketOf (recency_edges rows) ((row.recency : ℚ))) ∧
    ∀ r1 ∈ out, ∀ r2 ∈ out,
      bucketOf (recency_edges rows) ((r1.recency : ℚ)) <
          bucketOf (recency_edges rows) ((r2.recency : ℚ)) →
        r2.rScore < r1.rScore := by
  obtain ⟨rs, fs, ms, hR, hF, hM, rfl⟩ := get_segments_ok_elim rows out h
  have hrs : rs = ((recencyList rows).map fun z : ℤ => (z : ℚ)).map fun v =>
      List.getD [5, 4, 3, 2, 1]
        (bucketOf (qEdges ((recencyList rows).map fun z : ℤ => (z : ℚ))) v) 0 := by
    by_cases hnd : (qEdges ((recencyList rows).map fun z : ℤ => (z : ℚ))).Nodup
    · unfold qcut5 at hR
      rw [if_pos hnd] at hR
      exact (Except.ok.inj hR).symm
    · unfold qcut5 at hR
      rw [if_neg hnd] at hR
      exact Except.noConfusion hR
  have hlenR : (recencyList rows).length = (sortedMembers rows).length := by
    unfold recencyList
    rw [List.length_map]
  have key : ∀ row ∈ (List.range (sortedMembers rows).length).map
      (mkRFMRow (sortedMembers rows) (recencyList rows) (frequencyList rows)
        (monetaryList rows) rs fs ms),
      row.rScore = 5 - bucketOf (recency_edges rows) ((row.recency : ℚ)) := by
    intro row hrow
    obtain ⟨i, hi, rfl⟩ := List.mem_map.mp hrow
    have hi' := List.mem_range.mp hi
    show rs.getD i 0 = 5 - bucketOf (recency_edges rows)
      (((recencyList rows).getD i 0 : ℤ) : ℚ)
    rw [hrs, getD_map_QN _ _ i (by rw [List.length_map, hlenR]; exact hi'),
      getD_map_ZQ _ i (by rw [hlenR]; exact hi'),
      labels_getD_desc _ (bucketOf_le_four _ _)]
    rfl
  refine ⟨key, ?_⟩
  intro r1 h1 r2 h2 hlt
  rw [key r1 h1, key r2 h2]
  have b1 := bucketOf_le_four (recency_edges rows) ((r1.recency : ℚ))
  have b2 := bucketOf_le_four (recency_edges rows) ((r2.recency : ℚ))
  omega

theorem c5_recency_labels_reversed_witness :
    (((get_customer_segments (some exRows5)).toOption.getD []).headD
        default).rScore =
      5 - bucketOf (recency_edges exRows5)
        (((((get_customer_segments (some exRows5)).toOption.getD []).headD
          default).recency : ℚ)) :=
  (c5_recency_labels_reversed exRows5 _ (by with_unfolding_all rfl)).1 _
    (of_decide_eq_true (by with_unfolding_all rfl))
